import Mathlib

/-!
Verification of `simdltk/module/activation.py` (class `MultiheadAttention`).

Shallow embedding conventions:

* A scalar is an element of a field `α` (the claims are instantiated at `ℚ`).
* A tensor of shape `(S, B, E)` (sequence, batch, embedding) is a
  `List (Fin B → Fin E → α)`: the list runs over the sequence axis.
* The per-head layout `(B, H, S, D)` used for cached keys/values is a
  `List (Fin B → Fin H → Fin D → α)`, again with the list over the sequence axis.
  The `contiguous().view(...)`/`transpose` calls of the source are pure index
  bijections between these layouts; the embedding keeps one canonical layout and
  converts between the `(B, E)` and `(B, H, D)` views of a position with
  `toHeads`/`fromHeads` (`e = h * D + d`).
* A boolean `key_padding_mask` of shape `(B, S)` is a `List (Fin B → Bool)` with the
  list over the source axis (`torch.cat(..., dim=1)` is list append).
* An attention score extended with `-inf` is an `Option α`: `none` is `-inf`,
  `some x` a finite score.  `exp`, the exponential used by the external softmax
  primitive, is an explicit parameter; `exp(-inf) = 0` is `expExt`.
* Fallible code returns `Except PyError`.
-/

namespace Simdltk

/-- Python exceptions raised by the modelled code paths. -/
inductive PyError where
  | attributeError : PyError
  | runtimeError : PyError
  deriving DecidableEq

/-- One time position of a `(S, B, E)` tensor. -/
abbrev EVec (α : Type) (B E : ℕ) : Type := Fin B → Fin E → α

/-- One sequence position of a `(B, H, S, D)` tensor. -/
abbrev HVec (α : Type) (B H D : ℕ) : Type := Fin B → Fin H → Fin D → α

/-- Index of coordinate `d` of head `h` inside the flat embedding axis. -/
def hdIdx {H D : ℕ} (h : Fin H) (d : Fin D) : Fin (H * D) :=
  ⟨h.val * D + d.val, by
    calc h.val * D + d.val < h.val * D + D := Nat.add_lt_add_left d.isLt _
    _ = (h.val + 1) * D := by ring
    _ ≤ H * D := Nat.mul_le_mul_right D h.isLt⟩

/-- The `(B, E) → (B, H, D)` view of one position (`view(-1, bsz * num_heads, head_dim)`
followed by the head reshapes, lines 226-242 of the source). -/
def toHeads {α : Type} {B H D : ℕ} (x : EVec α B (H * D)) : HVec α B H D :=
  fun b h d => x b (hdIdx h d)

/-- The inverse `(B, H, D) → (B, E)` view (line 295 of the source). -/
def fromHeads {α : Type} {B H D : ℕ} (x : HVec α B H D) : EVec α B (H * D) :=
  fun b e =>
    have hD : 0 < D := by
      rcases Nat.eq_zero_or_pos D with h0 | h0
      · exact absurd e.isLt (by simp [h0])
      · exact h0
    x b ⟨e.val / D, (Nat.div_lt_iff_lt_mul hD).mpr e.isLt⟩ ⟨e.val % D, Nat.mod_lt _ hD⟩

section Defs

variable {α : Type} [Field α] {B H D : ℕ}

/-- `F.linear(x, W, bias)` at one time position: `out b i = (Σ j, x b j * W i j) + bias i`. -/
def linearMap {E : ℕ} (W : Fin E → Fin E → α) (bias : Fin E → α) (x : EVec α B E) :
    EVec α B E :=
  fun b i => (∑ j, x b j * W i j) + bias i

/-- One row of `torch.bmm(query, key.transpose(1, 2))` (line 249), for one query
position and one `(batch, head)` slice. -/
def scoreRow (q : Fin D → α) (ks : List (Fin D → α)) : List (Option α) :=
  ks.map (fun k => some (∑ d, q d * k d))

/-- Addition on scores extended with `-inf` (`none`): `-inf` absorbs. -/
def extAdd : Option α → Option α → Option α
  | some x, some y => some (x + y)
  | _, _ => none

/-- Additive application of `attn_mask` to one score row (line 266).  A mask shorter
than the row leaves the tail unchanged; well-shaped calls have equal lengths. -/
def addMaskRow : List (Option α) → List (Option α) → List (Option α)
  | [], _ => []
  | s :: row, [] => s :: row
  | s :: row, mv :: mask => extAdd s mv :: addMaskRow row mask

/-- `masked_fill(key_padding_mask, -inf)` on one score row for one batch item
(line 277), for a mask of the same length as the row; `padResolve` enforces torch's
broadcast-shape constraint and expands a length-1 mask before this is applied. -/
def maskedFillRow : List (Option α) → List Bool → List (Option α)
  | [], _ => []
  | s :: row, [] => s :: row
  | s :: row, mv :: mask => (if mv then none else s) :: maskedFillRow row mask

/-- The exponential extended with `exp(-inf) = 0`. -/
def expExt (exp : α → α) : Option α → α
  | none => 0
  | some x => exp x

/-- `F.softmax` over the source dimension of one row (line 283):
`exp(s_j) / Σ_k exp(s_k)`. -/
def softmaxRow (exp : α → α) (row : List (Option α)) : List α :=
  row.map (fun s => expExt exp s / (row.map (expExt exp)).sum)

/-- One `(batch, head)` slice of `torch.bmm(attn_probs, value)` for one query
position (line 295). -/
def aggrRow (probs : List α) (vs : List (Fin D → α)) : Fin D → α :=
  fun d => (List.zipWith (fun p v => p * v d) probs vs).sum

/-- Optional additive attention mask (lines 253-266). -/
def applyAttnMask (row : List (Option α)) : Option (List (Option α)) → List (Option α)
  | none => row
  | some mask => addMaskRow row mask

/-- Optional padding-mask fill (lines 268-281), one batch item. -/
def applyPadMask (row : List (Option α)) : Option (List Bool) → List (Option α)
  | none => row
  | some mask => maskedFillRow row mask

end Defs

/-- Weights of a constructed `MultiheadAttention` with `_qkv_same_embed_dim = True`
(the constructor asserts this, line 53).  The three projection weight/bias pairs are
the `torch.chunk(..., 3, dim=0)` thirds of `in_proj_weight`/`in_proj_bias`
(lines 209-210); `scaling = head_dim ** -0.5` (line 51) is kept as an opaque-valued
field of the record since no claim depends on its numeric value. -/
structure MHA (α : Type) (H D : ℕ) where
  q_proj_weight : Fin (H * D) → Fin (H * D) → α
  k_proj_weight : Fin (H * D) → Fin (H * D) → α
  v_proj_weight : Fin (H * D) → Fin (H * D) → α
  q_proj_bias : Fin (H * D) → α
  k_proj_bias : Fin (H * D) → α
  v_proj_bias : Fin (H * D) → α
  out_weight : Fin (H * D) → Fin (H * D) → α
  out_bias : Fin (H * D) → α
  scaling : α

/-- The caller-owned incremental decoding state: a dict with five optional entries
(lines 200-205).  `none` models an absent key. -/
structure DecodingState (α : Type) (B H D : ℕ) where
  static_key : Option (List (HVec α B H D)) := none
  static_value : Option (List (HVec α B H D)) := none
  prev_key : Option (List (HVec α B H D)) := none
  prev_value : Option (List (HVec α B H D)) := none
  prev_key_padding_mask : Option (List (Fin B → Bool)) := none

/-- The empty dict a caller creates before the first incremental step. -/
def DecodingState.empty {α : Type} {B H D : ℕ} : DecodingState α B H D := {}

/-- Result of a successful `_recurrent_forward` call: `(attn, attn_weights, new_state)`
(line 301).  `weights` is the pre-softmax score tensor after both masks, in `(T, B, H, S)`
layout. -/
structure AttnOut (α : Type) (B H D : ℕ) where
  attn : List (EVec α B (H * D))
  weights : List (Fin B → Fin H → List (Option α))
  state : DecodingState α B H D

section Fwd

variable {α : Type} [Field α] {B H D : ℕ}

/-- Query projection, scaling and head reshape (lines 212, 223, 226). -/
def projQ (m : MHA α H D) (x : EVec α B (H * D)) : HVec α B H D :=
  toHeads (fun b e => linearMap m.q_proj_weight m.q_proj_bias x b e * m.scaling)

/-- Key projection and head reshape (lines 215/218, 231). -/
def projK (m : MHA α H D) (x : EVec α B (H * D)) : HVec α B H D :=
  toHeads (linearMap m.k_proj_weight m.k_proj_bias x)

/-- Value projection and head reshape (lines 216/219, 232). -/
def projV (m : MHA α H D) (x : EVec α B (H * D)) : HVec α B H D :=
  toHeads (linearMap m.v_proj_weight m.v_proj_bias x)

/-- Key/value resolution and the cache writes of `_recurrent_forward`
(lines 213-242).  Returns the resolved per-head key/value sequences, the `src_len`
variable (updated at line 240 only in the growing-concatenation branch), and the
fresh `new_state` dict holding the entries written so far.  Reading `prev_value`
(resp. `static_value`) when it is absent but its partner is present raises
`AttributeError` in Python (`None.contiguous()`). -/
def kvResolve (m : MHA α H D) (key value : List (EVec α B (H * D)))
    (static_kv : Bool) (prev_state : DecodingState α B H D) :
    Except PyError (List (HVec α B H D) × List (HVec α B H D) × ℕ × DecodingState α B H D) :=
  if static_kv then
    match prev_state.static_key, prev_state.static_value with
    | some sk, some sv => .ok (sk, sv, key.length, DecodingState.empty)
    | some _, none => .error .attributeError
    | none, _ =>
        let kh := key.map (projK m)
        let vh := value.map (projV m)
        .ok (kh, vh, key.length, ⟨some kh, some vh, none, none, none⟩)
  else
    let kh := key.map (projK m)
    let vh := value.map (projV m)
    match prev_state.prev_key, prev_state.prev_value with
    | some pk, some pv =>
        .ok (pk ++ kh, pv ++ vh, (pk ++ kh).length,
          ⟨none, none, some (pk ++ kh), some (pv ++ vh), none⟩)
    | some _, none => .error .attributeError
    | none, _ =>
        .ok (kh, vh, key.length, ⟨none, none, some kh, some vh, none⟩)

/-- `key_padding_mask` accumulation and its state write (lines 268-273), together with
the shape requirements of lines 275-279: `attn_weights.view(bsz, num_heads, tgt_len,
src_len)` raises unless the resolved key length equals `src_len`, and `masked_fill`
broadcasts the accumulated `(B, L)` mask against the `(B, H, T, src_len)` weights,
which raises unless `L = src_len` or `L = 1` — a length-1 mask broadcasting over
every source position.  Returns the mask actually applied (after broadcast) and the
updated `new_state` (which stores the unbroadcast mask, line 273). -/
def padResolve (key_padding_mask : Option (List (Fin B → Bool))) (static_kv : Bool)
    (prev_state : DecodingState α B H D) (st0 : DecodingState α B H D)
    (klen src_len : ℕ) :
    Except PyError (Option (List (Fin B → Bool)) × DecodingState α B H D) :=
  match key_padding_mask with
  | none => .ok (none, st0)
  | some kpm =>
      let acc : List (Fin B → Bool) × DecodingState α B H D :=
        match static_kv with
        | true => (kpm, st0)
        | false =>
          match prev_state.prev_key_padding_mask with
          | some pm => (pm ++ kpm, { st0 with prev_key_padding_mask := some (pm ++ kpm) })
          | none => (kpm, { st0 with prev_key_padding_mask := some kpm })
      if klen = src_len then
        if acc.1.length = src_len then .ok (some acc.1, acc.2)
        else
          match acc.1 with
          | [f] => .ok (some (List.replicate src_len f), acc.2)
          | _ => .error .runtimeError
      else .error .runtimeError

/-- The pre-softmax attention weights after both masks (lines 249-281), `(T, B, H, S)`
layout.  The single `1 × S` additive `attn_mask` is broadcast over every query row, as
in the source. -/
def attnWeights (q K : List (HVec α B H D)) (attn_mask : Option (List (Option α)))
    (kpm : Option (List (Fin B → Bool))) : List (Fin B → Fin H → List (Option α)) :=
  q.map (fun qt b h =>
    applyPadMask (applyAttnMask (scoreRow (qt b h) (K.map (fun k => k b h))) attn_mask)
      (kpm.map (fun mask => mask.map (fun mrow => mrow b))))

/-- Softmax, aggregation over the resolved values, head merge and output projection
(lines 283-297).  `F.dropout` with `p = 0` — the setting of every claim — is the
identity and is not modelled. -/
def attnFromWeights (out_w : Fin (H * D) → Fin (H * D) → α) (out_b : Fin (H * D) → α)
    (exp : α → α) (W : List (Fin B → Fin H → List (Option α)))
    (V : List (HVec α B H D)) : List (EVec α B (H * D)) :=
  W.map (fun wrow =>
    linearMap out_w out_b (fromHeads (fun b h =>
      aggrRow (softmaxRow exp (wrow b h)) (V.map (fun v => v b h)))))

/-- `MultiheadAttention._recurrent_forward` (lines 186-301) for a constructed module
(`_qkv_same_embed_dim = True`; the `raise NotImplementedError` branch of lines 220-221
is unreachable because the constructor asserts this at line 53).  The explicit
`raise RuntimeError()` when `tgt_len > 1` is at lines 292-293. -/
def recurrentForward (m : MHA α H D) (exp : α → α)
    (query key value : List (EVec α B (H * D)))
    (key_padding_mask : Option (List (Fin B → Bool)))
    (attn_mask : Option (List (Option α)))
    (static_kv : Bool) (prev_state : DecodingState α B H D) :
    Except PyError (AttnOut α B H D) :=
  let tgt_len := query.length
  let q := query.map (projQ m)
  match kvResolve m key value static_kv prev_state with
  | .error e => .error e
  | .ok (K, V, src_len, st0) =>
      match padResolve key_padding_mask static_kv prev_state st0 K.length src_len with
      | .error e => .error e
      | .ok (kpmAcc, st1) =>
          let W := attnWeights q K attn_mask kpmAcc
          if tgt_len > 1 then .error .runtimeError
          else .ok ⟨attnFromWeights m.out_weight m.out_bias exp W V, W, st1⟩

end Fwd

/-- The constructor checks of `MultiheadAttention.__init__` (lines 41-79): with
`kdim`/`vdim` defaulted to `embed_dim`, construction succeeds iff
`head_dim * num_heads == embed_dim` where `head_dim = embed_dim // num_heads`
(line 52), `_qkv_same_embed_dim` holds (line 53) and `add_zero_attn` is false
(line 79).  `num_heads = 0` fails because Python raises `ZeroDivisionError` at
`embed_dim // num_heads`. -/
def initOk (embed_dim num_heads : ℕ) (kdim vdim : Option ℕ) (add_zero_attn : Bool) :
    Bool :=
  let kd := kdim.getD embed_dim
  let vd := vdim.getD embed_dim
  let qkv_same := kd == embed_dim && vd == embed_dim
  num_heads != 0 &&
    ((embed_dim / num_heads) * num_heads == embed_dim) && qkv_same && !add_zero_attn

section Loops

variable {α : Type} [Field α] {B H D : ℕ}

/-- Growing-mode (self-attention) decoding loop: step `t` passes the single-timestep
input `x_t` as query, key and value, together with its per-step padding mask, passes
the state returned by the previous step as `prev_state`, and concatenates the
outputs. -/
def decodeGrow (m : MHA α H D) (exp : α → α) :
    List (EVec α B (H * D) × (Fin B → Bool)) → DecodingState α B H D →
      Except PyError (List (EVec α B (H * D)) × DecodingState α B H D)
  | [], st => .ok ([], st)
  | (x, mk) :: rest, st =>
      match recurrentForward m exp [x] [x] [x] (some [mk]) none false st with
      | .error e => .error e
      | .ok out =>
          match decodeGrow m exp rest out.state with
          | .error e => .error e
          | .ok (outs, stFin) => .ok (out.attn ++ outs, stFin)

/-- Generic growing-mode call chain threading the returned state; each step supplies a
single-timestep query/key/value and an optional single-position padding mask.  Only the
final state is kept. -/
def growChain (m : MHA α H D) (exp : α → α) :
    List (EVec α B (H * D) × EVec α B (H * D) × EVec α B (H * D) × Option (Fin B → Bool)) →
      DecodingState α B H D → Except PyError (DecodingState α B H D)
  | [], st => .ok st
  | (q, k, v, mk) :: rest, st =>
      match recurrentForward m exp [q] [k] [v] (mk.map (fun f => [f])) none false st with
      | .error e => .error e
      | .ok out => growChain m exp rest out.state

/-- Baseline non-incremental attention.  Modelled from the spec: the source's
non-incremental path (lines 157-165) delegates to the external library primitive
`F.multi_head_attention_forward`, whose algorithm the spec describes in §4.1 —
project q, k, v via the combined weights split into thirds; scale the query by
`head_dim ** -0.5`; reshape to `(batch·heads, seq, head_dim)`; `Q·Kᵀ`; add the
`(L, S)` additive `attn_mask` row by row; fill `key_padding_mask` positions with
`-inf`; softmax over the source dimension; dropout at probability 0 (identity);
weighted sum over value; merge heads and apply the output projection.  Only the
attention output is modelled, which is what the refinement claim compares. -/
def baselineForward (m : MHA α H D) (exp : α → α)
    (query key value : List (EVec α B (H * D)))
    (key_padding_mask : Option (List (Fin B → Bool)))
    (attn_mask : Option (List (List (Option α)))) : List (EVec α B (H * D)) :=
  let q := query.map (projQ m)
  let K := key.map (projK m)
  let V := value.map (projV m)
  let rows : List (Fin B → Fin H → List (Option α)) :=
    match attn_mask with
    | none => q.map (fun qt b h =>
        applyPadMask (scoreRow (qt b h) (K.map (fun k => k b h)))
          (key_padding_mask.map (fun mask => mask.map (fun mrow => mrow b))))
    | some am => List.zipWith (fun qt mrow b h =>
        applyPadMask (addMaskRow (scoreRow (qt b h) (K.map (fun k => k b h))) mrow)
          (key_padding_mask.map (fun mask => mask.map (fun mr => mr b)))) q am
  attnFromWeights m.out_weight m.out_bias exp rows V

/-- The causal additive attention mask over `n` positions: entry `(i, j)` is `0` when
`j ≤ i` and `-inf` otherwise. -/
def causalMask (n : ℕ) : List (List (Option α)) :=
  (List.range n).map (fun i => (List.range n).map (fun j =>
    if j ≤ i then some 0 else none))

/-- States reachable from the empty dict by successful incremental calls made with one
constant `static_kv` flag. -/
inductive Reachable (m : MHA α H D) (exp : α → α) (static_kv : Bool) :
    DecodingState α B H D → Prop where
  | empty : Reachable m exp static_kv DecodingState.empty
  | step (s : DecodingState α B H D) (q k v : List (EVec α B (H * D)))
      (kpm : Option (List (Fin B → Bool))) (am : Option (List (Option α)))
      (out : AttnOut α B H D) (hs : Reachable m exp static_kv s)
      (hc : recurrentForward m exp q k v kpm am static_kv s = .ok out) :
      Reachable m exp static_kv out.state

/-- The projected per-head keys of the inputs of a growing-mode decode run. -/
def growKs (m : MHA α H D) (entries : List (EVec α B (H * D) × (Fin B → Bool))) :
    List (HVec α B H D) :=
  entries.map (fun e => projK m e.1)

/-- The projected per-head values of the inputs of a growing-mode decode run. -/
def growVs (m : MHA α H D) (entries : List (EVec α B (H * D) × (Fin B → Bool))) :
    List (HVec α B H D) :=
  entries.map (fun e => projV m e.1)

/-- The per-step padding masks of a growing-mode decode run. -/
def growMs {α : Type} (entries : List (EVec α B (H * D) × (Fin B → Bool))) :
    List (Fin B → Bool) :=
  entries.map (fun e => e.2)

/-- The decoding state after a growing-mode decode run over `entries`. -/
def growState (m : MHA α H D) (entries : List (EVec α B (H * D) × (Fin B → Bool))) :
    DecodingState α B H D :=
  ⟨none, none, some (growKs m entries), some (growVs m entries),
    some (growMs entries)⟩

/-- The attention output of one growing-mode step whose resolved per-head keys/values
are `K`/`V`, whose accumulated padding mask is `pms`, and whose single-timestep query
is `x`. -/
def growRowOut (m : MHA α H D) (exp : α → α) (K V : List (HVec α B H D))
    (pms : List (Fin B → Bool)) (x : EVec α B (H * D)) : EVec α B (H * D) :=
  linearMap m.out_weight m.out_bias (fromHeads (fun b h =>
    aggrRow (softmaxRow exp (maskedFillRow
        (scoreRow (projQ m x b h) (K.map (fun k => k b h)))
        (pms.map (fun f => f b))))
      (V.map (fun v => v b h))))

/-- The outputs of the growing-mode decode loop over `suf`, the history `pre` having
already been decoded: step `t` attends over the projected prefix up to and including
its own input. -/
def growRows (m : MHA α H D) (exp : α → α) :
    List (EVec α B (H * D) × (Fin B → Bool)) →
      List (EVec α B (H * D) × (Fin B → Bool)) → List (EVec α B (H * D))
  | _, [] => []
  | pre, (x, mk) :: rest =>
      growRowOut m exp (growKs m (pre ++ [(x, mk)])) (growVs m (pre ++ [(x, mk)]))
          (growMs (pre ++ [(x, mk)])) x ::
        growRows m exp (pre ++ [(x, mk)]) rest

/-- The static cache family of a state is populated. -/
def staticPopulated (s : DecodingState α B H D) : Prop :=
  s.static_key.isSome = true ∨ s.static_value.isSome = true

/-- The growing cache family of a state is populated. -/
def growPopulated (s : DecodingState α B H D) : Prop :=
  s.prev_key.isSome = true ∨ s.prev_value.isSome = true

end Loops

/-- A concrete one-head, one-dimensional module over `ℚ` used by the witnesses. -/
def mEx : MHA ℚ 1 1 :=
  ⟨fun _ _ => 1, fun _ _ => 1, fun _ _ => 1, fun _ => 0, fun _ => 0, fun _ => 0,
    fun _ _ => 1, fun _ => 0, 1⟩

/-- A concrete exponential stand-in for the witnesses (its value is irrelevant to the
cache claims). -/
def expEx : ℚ → ℚ := fun _ => 1

/-- A concrete single time position input for the witnesses. -/
def xEx : EVec ℚ 1 1 := fun _ _ => 1

/-- A concrete per-step padding mask for the witnesses. -/
def mkEx : Fin 1 → Bool := fun _ => false

/-- A concrete decoding state with a populated static cache, for the witnesses. -/
def stEx : DecodingState ℚ 1 1 1 :=
  ⟨some [fun _ _ _ => 1], some [fun _ _ _ => 1], none, none, none⟩

/-- The literal result of the first growing-mode call of the witnesses. -/
def outGrowEx : AttnOut ℚ 1 1 1 :=
  ⟨attnFromWeights mEx.out_weight mEx.out_bias expEx
      (attnWeights [projQ mEx xEx] [projK mEx xEx] none none) [projV mEx xEx],
    attnWeights [projQ mEx xEx] [projK mEx xEx] none none,
    ⟨none, none, some [projK mEx xEx], some [projV mEx xEx], none⟩⟩

/-- The literal result of a static-mode call of the witnesses on the populated
cache `stEx`. -/
def outStaticEx : AttnOut ℚ 1 1 1 :=
  ⟨attnFromWeights mEx.out_weight mEx.out_bias expEx
      (attnWeights [projQ mEx xEx] [fun _ _ _ => 1] none none) [fun _ _ _ => 1],
    attnWeights [projQ mEx xEx] [fun _ _ _ => 1] none none,
    DecodingState.empty⟩

/-- Whether a call returned normally rather than raising. -/
def isOkE {β : Type} : Except PyError β → Bool
  | .ok _ => true
  | .error _ => false

section Lemmas

variable {α : Type} [Field α] {B H D : ℕ}

theorem kvResolve_static_cached (m : MHA α H D) (key value : List (EVec α B (H * D)))
    (prev : DecodingState α B H D) (sk sv : List (HVec α B H D))
    (hsk : prev.static_key = some sk) (hsv : prev.static_value = some sv) :
    kvResolve m key value true prev = .ok (sk, sv, key.length, DecodingState.empty) := by
  simp [kvResolve, hsk, hsv]

theorem recurrentForward_grow_masked_step (m : MHA α H D) (exp : α → α)
    (q k v : EVec α B (H * D)) (mk : Fin B → Bool) (ks vs : List (HVec α B H D))
    (pms : List (Fin B → Bool)) (hal : pms.length = ks.length) :
    recurrentForward m exp [q] [k] [v] (some [mk]) none false
        ⟨none, none, some ks, some vs, some pms⟩ =
      .ok ⟨[growRowOut m exp (ks ++ [projK m k]) (vs ++ [projV m v]) (pms ++ [mk]) q],
        attnWeights [projQ m q] (ks ++ [projK m k]) none (some (pms ++ [mk])),
        ⟨none, none, some (ks ++ [projK m k]), some (vs ++ [projV m v]),
          some (pms ++ [mk])⟩⟩ := by
  simp [recurrentForward, kvResolve, padResolve, hal]
  rfl

theorem recurrentForward_masked_first (m : MHA α H D) (exp : α → α)
    (q k v : EVec α B (H * D)) (mk : Fin B → Bool) :
    recurrentForward m exp [q] [k] [v] (some [mk]) none false DecodingState.empty =
      recurrentForward m exp [q] [k] [v] (some [mk]) none false
        ⟨none, none, some [], some [], some []⟩ := by
  simp [recurrentForward, kvResolve, padResolve, DecodingState.empty]

theorem growChain_masked (m : MHA α H D) (exp : α → α)
    (steps : List (EVec α B (H * D) × EVec α B (H * D) × EVec α B (H * D) ×
      (Fin B → Bool))) :
    ∀ (ks vs : List (HVec α B H D)) (pms : List (Fin B → Bool)),
      pms.length = ks.length →
      growChain m exp (steps.map (fun t => (t.1, t.2.1, t.2.2.1, some t.2.2.2)))
          ⟨none, none, some ks, some vs, some pms⟩ =
        .ok ⟨none, none, some (ks ++ steps.map (fun s => projK m s.2.1)),
          some (vs ++ steps.map (fun s => projV m s.2.2.1)),
          some (pms ++ steps.map (fun s => s.2.2.2))⟩ := by
  induction steps with
  | nil =>
      intro ks vs pms _
      simp [growChain]
  | cons s rest ih =>
      intro ks vs pms hal
      obtain ⟨q, k, v, mk⟩ := s
      rw [List.map_cons]
      dsimp only
      rw [growChain]
      simp only [Option.map_some']
      rw [recurrentForward_grow_masked_step m exp q k v mk ks vs pms hal]
      dsimp only
      rw [ih (ks ++ [projK m k]) (vs ++ [projV m v]) (pms ++ [mk]) (by simp [hal])]
      simp [List.append_assoc]

theorem kvResolve_state_shape (m : MHA α H D) (key value : List (EVec α B (H * D)))
    (skv : Bool) (prev : DecodingState α B H D)
    (r : List (HVec α B H D) × List (HVec α B H D) × ℕ × DecodingState α B H D)
    (h : kvResolve m key value skv prev = .ok r) :
    r.2.2.2.prev_key_padding_mask = none ∧
      (skv = true → r.2.2.2.prev_key = none ∧ r.2.2.2.prev_value = none) ∧
      (skv = false → r.2.2.2.static_key = none ∧ r.2.2.2.static_value = none) ∧
      (skv = false → r.2.2.2.prev_key.isSome = true ∧
        r.2.2.2.prev_value.isSome = true) ∧
      (skv = true → prev.static_key.isSome = true → r.2.2.2 = DecodingState.empty) ∧
      (skv = true → prev.static_key = none →
        r.2.2.2.static_key.isSome = true ∧ r.2.2.2.static_value.isSome = true) := by
  cases skv with
  | true =>
      rcases hsk : prev.static_key with _ | sk <;> rcases hsv : prev.static_value with _ | sv <;>
        simp [kvResolve, hsk, hsv] at h <;> rw [← h] <;> simp [DecodingState.empty, hsk]
  | false =>
      rcases hpk : prev.prev_key with _ | pk <;> rcases hpv : prev.prev_value with _ | pv <;>
        simp [kvResolve, hpk, hpv] at h <;> rw [← h] <;> simp [DecodingState.empty]

theorem padResolve_state_shape (kpm : Option (List (Fin B → Bool))) (skv : Bool)
    (prev st0 : DecodingState α B H D) (klen srclen : ℕ)
    (r : Option (List (Fin B → Bool)) × DecodingState α B H D)
    (h : padResolve (α := α) kpm skv prev st0 klen srclen = .ok r) :
    r.2.static_key = st0.static_key ∧ r.2.static_value = st0.static_value ∧
      r.2.prev_key = st0.prev_key ∧ r.2.prev_value = st0.prev_value ∧
      (kpm = none → r.2 = st0) ∧ (skv = true → r.2 = st0) ∧
      (skv = false → ∀ l, kpm = some l →
        r.2.prev_key_padding_mask.isSome = true) := by
  rcases kpm with _ | kpm
  · simp [padResolve] at h
    rw [← h]
    simp
  · cases skv with
    | true =>
        simp only [padResolve] at h
        split at h
        · split at h
          · simp only [Except.ok.injEq] at h
            rw [← h]
            simp
          · split at h
            · simp only [Except.ok.injEq] at h
              rw [← h]
              simp
            · simp at h
        · simp at h
    | false =>
        rcases hpm : prev.prev_key_padding_mask with _ | pm <;>
          simp only [padResolve, hpm] at h
        · split at h
          · split at h
            · simp only [Except.ok.injEq] at h
              rw [← h]
              simp
            · split at h
              · simp only [Except.ok.injEq] at h
                rw [← h]
                simp
              · simp at h
          · simp at h
        · split at h
          · split at h
            · simp only [Except.ok.injEq] at h
              rw [← h]
              simp
            · split at h
              · simp only [Except.ok.injEq] at h
                rw [← h]
                simp
              · simp at h
          · simp at h

theorem recurrentForward_ok_families (m : MHA α H D) (exp : α → α)
    (q k v : List (EVec α B (H * D))) (kpm : Option (List (Fin B → Bool)))
    (am : Option (List (Option α))) (skv : Bool) (prev : DecodingState α B H D)
    (out : AttnOut α B H D)
    (hc : recurrentForward m exp q k v kpm am skv prev = .ok out) :
    (skv = true → out.state.prev_key = none ∧ out.state.prev_value = none) ∧
      (skv = false → out.state.static_key = none ∧ out.state.static_value = none) := by
  unfold recurrentForward at hc
  rcases hkv : kvResolve m k v skv prev with e | r
  · rw [hkv] at hc
    simp at hc
  · obtain ⟨K, V, srcl, st0⟩ := r
    rw [hkv] at hc
    dsimp only at hc
    rcases hpad : padResolve kpm skv prev st0 K.length srcl with e | r2
    · rw [hpad] at hc
      simp at hc
    · obtain ⟨kq, st1⟩ := r2
      rw [hpad] at hc
      dsimp only at hc
      split at hc
      · simp at hc
      · simp only [Except.ok.injEq] at hc
        have hkvs := kvResolve_state_shape m k v skv prev (K, V, srcl, st0) hkv
        have hps := padResolve_state_shape kpm skv prev st0 K.length srcl (kq, st1) hpad
        have hout : out.state = st1 := by rw [← hc]
        rw [hout]
        constructor
        · intro hskv
          exact ⟨hps.2.2.1.trans (hkvs.2.1 hskv).1,
            hps.2.2.2.1.trans (hkvs.2.1 hskv).2⟩
        · intro hskv
          exact ⟨hps.1.trans (hkvs.2.2.1 hskv).1, hps.2.1.trans (hkvs.2.2.1 hskv).2⟩

end Lemmas

section Claims

variable {α : Type} [Field α] {B H D : ℕ}

/-- C6: construction of the attention module (with `add_zero_attn` at its default
`False`) fails iff `embed_dim` is not divisible by `num_heads` or `kdim`/`vdim` are
given values differing from `embed_dim`; otherwise construction succeeds. -/
theorem init_succeeds_iff (embed_dim num_heads : ℕ) (kdim vdim : Option ℕ)
    (h : 0 < num_heads) :
    initOk embed_dim num_heads kdim vdim false = true ↔
      (embed_dim % num_heads = 0 ∧ kdim.getD embed_dim = embed_dim ∧
        vdim.getD embed_dim = embed_dim) := by
  have hdm := Nat.div_add_mod embed_dim num_heads
  simp only [initOk, Bool.and_eq_true, bne_iff_ne, ne_eq, beq_iff_eq, Bool.not_false,
    and_true]
  constructor
  · rintro ⟨⟨hnz, hdiv⟩, hk, hv⟩
    refine ⟨?_, hk, hv⟩
    have h2 : num_heads * (embed_dim / num_heads) = embed_dim := by
      rw [Nat.mul_comm]; exact hdiv
    rw [h2] at hdm
    exact add_right_eq_self.mp hdm
  · rintro ⟨hmod, hk, hv⟩
    exact ⟨⟨h.ne', Nat.div_mul_cancel (Nat.dvd_of_mod_eq_zero hmod)⟩, hk, hv⟩

/-- Witness for C6: `embed_dim = 10`, `num_heads = 3` fails construction, and
`embed_dim = 12`, `num_heads = 3` succeeds. -/
theorem init_succeeds_iff_witness :
    (0 < 3 ∧ (initOk 10 3 none none false = true ↔
        (10 % 3 = 0 ∧ (none : Option ℕ).getD 10 = 10 ∧ (none : Option ℕ).getD 10 = 10))) ∧
      (initOk 12 3 none none false = true ↔
        (12 % 3 = 0 ∧ (none : Option ℕ).getD 12 = 12 ∧ (none : Option ℕ).getD 12 = 12)) :=
  ⟨⟨by decide, init_succeeds_iff 10 3 none none (by decide)⟩,
    init_succeeds_iff 12 3 none none (by decide)⟩

/-- C5: an incremental call whose query has more than one timestep raises instead of
returning a result, whatever the other arguments and the incoming state are. -/
theorem incremental_multi_timestep_raises (m : MHA α H D) (exp : α → α)
    (q1 q2 : EVec α B (H * D)) (qs : List (EVec α B (H * D)))
    (key value : List (EVec α B (H * D))) (kpm : Option (List (Fin B → Bool)))
    (am : Option (List (Option α))) (skv : Bool) (prev : DecodingState α B H D) :
    isOkE (recurrentForward m exp (q1 :: q2 :: qs) key value kpm am skv prev) = false := by
  unfold recurrentForward
  rcases hkv : kvResolve m key value skv prev with e | r
  · rfl
  · obtain ⟨K, V, srcl, st0⟩ := r
    dsimp only
    rcases hpad : padResolve kpm skv prev st0 K.length srcl with e | r2
    · rfl
    · obtain ⟨kq, st1⟩ := r2
      dsimp only
      rw [if_pos (by simp only [List.length_cons]; omega)]
      rfl

/-- C10: in growing mode, a call without a `key_padding_mask` ignores any accumulated
`prev_key_padding_mask` in the incoming state (the result equals the result with the
entry removed) and the returned state omits the entry, discarding the accumulated
history. -/
theorem grow_no_mask_ignores_and_drops_history (m : MHA α H D) (exp : α → α)
    (query key value : List (EVec α B (H * D))) (am : Option (List (Option α)))
    (prev : DecodingState α B H D) :
    recurrentForward m exp query key value none am false prev =
        recurrentForward m exp query key value none am false
          ⟨prev.static_key, prev.static_value, prev.prev_key, prev.prev_value, none⟩ ∧
      (recurrentForward m exp query key value none am false prev).map
          (fun o => o.state.prev_key_padding_mask) =
        (recurrentForward m exp query key value none am false prev).map
          (fun _ => none) := by
  constructor
  · rfl
  · unfold recurrentForward
    rcases hkv : kvResolve m key value false prev with e | r
    · rfl
    · obtain ⟨K, V, srcl, st0⟩ := r
      dsimp only
      have hsh := kvResolve_state_shape m key value false prev (K, V, srcl, st0) hkv
      have h1 : st0.prev_key_padding_mask = none := hsh.1
      dsimp only [padResolve]
      split
      · rfl
      · simp only [Except.map]
        rw [h1]

/-- C8: in static mode with the cache already populated, two incremental calls that
differ only in the raw key and value tensor arguments (of the same sequence length)
return the same attention output, weights and state: the arguments are ignored. -/
theorem static_cached_ignores_kv_args (m : MHA α H D) (exp : α → α)
    (query k1 v1 k2 v2 : List (EVec α B (H * D))) (kpm : Option (List (Fin B → Bool)))
    (am : Option (List (Option α))) (prev : DecodingState α B H D)
    (sk sv : List (HVec α B H D)) (hsk : prev.static_key = some sk)
    (hsv : prev.static_value = some sv) (hlen : k1.length = k2.length) :
    recurrentForward m exp query k1 v1 kpm am true prev =
      recurrentForward m exp query k2 v2 kpm am true prev := by
  unfold recurrentForward
  rw [kvResolve_static_cached m k1 v1 prev sk sv hsk hsv,
    kvResolve_static_cached m k2 v2 prev sk sv hsk hsv, hlen]

/-- Witness for C8: a concrete cached state with two different key/value argument
pairs of equal length. -/
theorem static_cached_ignores_kv_args_witness :
    recurrentForward mEx expEx [xEx] [xEx] [xEx] none none true stEx =
      recurrentForward mEx expEx [xEx] [fun _ _ => 0] [fun _ _ => 5] none none true
        stEx :=
  static_cached_ignores_kv_args mEx expEx [xEx] [xEx] [xEx] [fun _ _ => 0]
    [fun _ _ => 5] none none stEx _ _ rfl rfl rfl

/-- C2: code-bug evidence.  With `static_kv = True`, the first call from the empty
state populates `static_key`/`static_value` in the returned state, but the second
call, given that returned state, returns a state in which the entries are absent:
the cache does not remain present in the returned state on calls 2..K, so threading
returned states recomputes the source projection on every other call. -/
theorem static_cache_not_retained_on_reuse :
    ((recurrentForward mEx expEx [xEx] [xEx] [xEx] none none true
        DecodingState.empty).map (fun o1 => o1.state.static_key.isSome)) = .ok true ∧
      ((recurrentForward mEx expEx [xEx] [xEx] [xEx] none none true
        DecodingState.empty).bind (fun o1 =>
          recurrentForward mEx expEx [xEx] [xEx] [xEx] none none true o1.state)).map
        (fun o2 => o2.state) = .ok DecodingState.empty := by
  constructor <;> rfl

/-- C7: counterexample.  An incremental call given a state holding
`static_key`/`static_value` returns a state from which these entries are absent: the
call did not add or replace entries in the caller's state object — it built a fresh
dict that drops the existing entries. -/
theorem prev_entries_absent_from_returned_state :
    stEx.static_key.isSome = true ∧
      (recurrentForward mEx expEx [xEx] [xEx] [xEx] none none true stEx).map
        (fun o => o.state.static_key) = .ok none := by
  constructor <;> rfl

/-- C7 amended: each incremental call leaves `prev_state` unchanged and returns a
fresh state dict containing only the cache entries written during that call:
growing-mode calls return `prev_key`/`prev_value` (and `prev_key_padding_mask`
exactly when a mask was supplied) with no static entries; static-mode calls return
no growing entries and no mask entry, an empty state when the cache was already
populated, and `static_key`/`static_value` exactly on the call that computes them —
entries of `prev_state` are never carried over. -/
theorem call_returns_fresh_state (m : MHA α H D) (exp : α → α)
    (q k v : List (EVec α B (H * D))) (kpm : Option (List (Fin B → Bool)))
    (am : Option (List (Option α))) (skv : Bool) (prev : DecodingState α B H D)
    (out : AttnOut α B H D)
    (hc : recurrentForward m exp q k v kpm am skv prev = .ok out) :
    (skv = false →
        out.state.static_key = none ∧ out.state.static_value = none ∧
        out.state.prev_key.isSome = true ∧ out.state.prev_value.isSome = true ∧
        (kpm = none → out.state.prev_key_padding_mask = none) ∧
        (∀ l, kpm = some l → out.state.prev_key_padding_mask.isSome = true)) ∧
      (skv = true →
        out.state.prev_key = none ∧ out.state.prev_value = none ∧
        out.state.prev_key_padding_mask = none ∧
        (prev.static_key.isSome = true → out.state = DecodingState.empty) ∧
        (prev.static_key = none →
          out.state.static_key.isSome = true ∧
            out.state.static_value.isSome = true)) := by
  unfold recurrentForward at hc
  rcases hkv : kvResolve m k v skv prev with e | r
  · rw [hkv] at hc
    simp at hc
  · obtain ⟨K, V, srcl, st0⟩ := r
    rw [hkv] at hc
    dsimp only at hc
    rcases hpad : padResolve kpm skv prev st0 K.length srcl with e | r2
    · rw [hpad] at hc
      simp at hc
    · obtain ⟨kq, st1⟩ := r2
      rw [hpad] at hc
      dsimp only at hc
      split at hc
      · simp at hc
      · simp only [Except.ok.injEq] at hc
        have hkvs := kvResolve_state_shape m k v skv prev (K, V, srcl, st0) hkv
        have hps := padResolve_state_shape kpm skv prev st0 K.length srcl (kq, st1) hpad
        have hout : out.state = st1 := by rw [← hc]
        rw [hout]
        constructor
        · intro hskv
          refine ⟨hps.1.trans (hkvs.2.2.1 hskv).1,
            hps.2.1.trans (hkvs.2.2.1 hskv).2, ?_, ?_, ?_, ?_⟩
          · have h3 : st1.prev_key = st0.prev_key := hps.2.2.1
            rw [h3]
            exact (hkvs.2.2.2.1 hskv).1
          · have h4 : st1.prev_value = st0.prev_value := hps.2.2.2.1
            rw [h4]
            exact (hkvs.2.2.2.1 hskv).2
          · intro hkn
            have h5 : st1 = st0 := hps.2.2.2.2.1 hkn
            rw [h5]
            exact hkvs.1
          · intro l hl
            exact hps.2.2.2.2.2.2 hskv l hl
        · intro hskv
          have h6 : st1 = st0 := hps.2.2.2.2.2.1 hskv
          rw [h6]
          exact ⟨(hkvs.2.1 hskv).1, (hkvs.2.1 hskv).2, hkvs.1,
            fun hsk => hkvs.2.2.2.2.1 hskv hsk,
            fun hsk => hkvs.2.2.2.2.2 hskv hsk⟩

/-- Witness for the amended C7 at a concrete static-mode call on a populated cache. -/
theorem call_returns_fresh_state_witness :
    (true = false →
        outStaticEx.state.static_key = none ∧ outStaticEx.state.static_value = none ∧
        outStaticEx.state.prev_key.isSome = true ∧
        outStaticEx.state.prev_value.isSome = true ∧
        ((none : Option (List (Fin 1 → Bool))) = none →
          outStaticEx.state.prev_key_padding_mask = none) ∧
        (∀ l, (none : Option (List (Fin 1 → Bool))) = some l →
          outStaticEx.state.prev_key_padding_mask.isSome = true)) ∧
      (true = true →
        outStaticEx.state.prev_key = none ∧ outStaticEx.state.prev_value = none ∧
        outStaticEx.state.prev_key_padding_mask = none ∧
        (stEx.static_key.isSome = true → outStaticEx.state = DecodingState.empty) ∧
        (stEx.static_key = none →
          outStaticEx.state.static_key.isSome = true ∧
            outStaticEx.state.static_value.isSome = true)) :=
  call_returns_fresh_state mEx expEx [xEx] [xEx] [xEx] none none true stEx
    outStaticEx rfl

/-- C9: counterexample.  The state reached by two successful static-mode incremental
calls from the empty state (threading returned states, constant `static_kv = True`)
has neither the static family nor the growing family populated, contradicting that
exactly one of the two families is populated in every reachable state. -/
theorem reachable_state_with_neither_family :
    ((recurrentForward mEx expEx [xEx] [xEx] [xEx] none none true
        DecodingState.empty).bind (fun o1 =>
          recurrentForward mEx expEx [xEx] [xEx] [xEx] none none true o1.state)).map
        (fun o2 => (o2.state.static_key.isSome, o2.state.static_value.isSome,
          o2.state.prev_key.isSome, o2.state.prev_value.isSome)) =
      .ok (false, false, false, false) := by rfl

/-- C9 amended: in every state reachable from the empty dict by successful
incremental calls with a constant `static_kv` flag, at most one cache family is
populated — never `static_key`/`static_value` and `prev_key`/`prev_value` together
(after two static-mode calls the reachable state has neither). -/
theorem reachable_state_never_both_families (m : MHA α H D) (exp : α → α) (skv : Bool)
    (s : DecodingState α B H D) (h : Reachable m exp skv s) :
    ¬(staticPopulated s ∧ growPopulated s) := by
  induction h with
  | empty =>
      rintro ⟨hst, _⟩
      simp only [staticPopulated, DecodingState.empty] at hst
      rcases hst with h1 | h1 <;> simp at h1
  | step s q k v kpm am out hs hc ih =>
      have hfam := recurrentForward_ok_families m exp q k v kpm am skv s out hc
      cases skv with
      | true =>
          rintro ⟨hst, hgr⟩
          simp only [growPopulated] at hgr
          rcases hgr with h1 | h1
          · rw [(hfam.1 rfl).1] at h1
            simp at h1
          · rw [(hfam.1 rfl).2] at h1
            simp at h1
      | false =>
          rintro ⟨hst, hgr⟩
          simp only [staticPopulated] at hst
          rcases hst with h1 | h1
          · rw [(hfam.2 rfl).1] at h1
            simp at h1
          · rw [(hfam.2 rfl).2] at h1
            simp at h1

/-- Witness for the amended C9 at a concrete reachable state. -/
theorem reachable_state_never_both_families_witness :
    ¬(staticPopulated (DecodingState.empty : DecodingState ℚ 1 1 1) ∧
        growPopulated (DecodingState.empty : DecodingState ℚ 1 1 1)) :=
  reachable_state_never_both_families mEx expEx true DecodingState.empty Reachable.empty

/-- C3: in growing mode, after `M ≥ 1` successive incremental calls each supplying a
per-step `key_padding_mask` and threading returned states from the empty state, the
returned state's `prev_key_padding_mask` equals the concatenation of the `M` per-step
masks in call order. -/
theorem grow_padding_mask_accumulates (m : MHA α H D) (exp : α → α)
    (s0 : EVec α B (H * D) × EVec α B (H * D) × EVec α B (H * D) × (Fin B → Bool))
    (rest : List (EVec α B (H * D) × EVec α B (H * D) × EVec α B (H * D) ×
      (Fin B → Bool))) :
    (growChain m exp
        ((s0 :: rest).map (fun t => (t.1, t.2.1, t.2.2.1, some t.2.2.2)))
        DecodingState.empty).map (fun st => st.prev_key_padding_mask) =
      .ok (some ((s0 :: rest).map (fun t => t.2.2.2))) := by
  obtain ⟨q, k, v, mk⟩ := s0
  rw [List.map_cons]
  dsimp only
  rw [growChain]
  simp only [Option.map_some']
  rw [recurrentForward_masked_first,
    recurrentForward_grow_masked_step m exp q k v mk [] [] [] rfl]
  dsimp only
  rw [growChain_masked m exp rest ([] ++ [projK m k]) ([] ++ [projV m v]) ([] ++ [mk])
    (by simp)]
  simp [Except.map]

/-- C4: a growing-mode incremental call with a single-timestep key/value that
returns a result extends the cached `prev_key`/`prev_value` history by exactly one
position over the lengths cached in `prev_state` (length 1 after the first call from
the empty state, so 1, 2, 3 after steps 1, 2, 3 when each call succeeds). -/
theorem grow_history_grows_by_one (m : MHA α H D) (exp : α → α)
    (query : List (EVec α B (H * D))) (kx vx : EVec α B (H * D))
    (kpm : Option (List (Fin B → Bool))) (am : Option (List (Option α)))
    (prev : DecodingState α B H D) (out : AttnOut α B H D)
    (hpair : prev.prev_key.isSome = prev.prev_value.isSome)
    (hc : recurrentForward m exp query [kx] [vx] kpm am false prev = .ok out) :
    out.state.prev_key.map List.length = some ((prev.prev_key.getD []).length + 1) ∧
      out.state.prev_value.map List.length =
        some ((prev.prev_value.getD []).length + 1) := by
  unfold recurrentForward at hc
  rcases hpk : prev.prev_key with _ | pk <;> rcases hpv : prev.prev_value with _ | pv
  · have hkvr : kvResolve m [kx] [vx] false prev =
        .ok ([projK m kx], [projV m vx], 1,
          ⟨none, none, some [projK m kx], some [projV m vx], none⟩) := by
      simp [kvResolve, hpk]
    rw [hkvr] at hc
    dsimp only at hc
    rcases hpad : padResolve kpm false prev
        ⟨none, none, some [projK m kx], some [projV m vx], none⟩
        [projK m kx].length 1 with e | r2
    · rw [hpad] at hc
      simp at hc
    · obtain ⟨kq, st1⟩ := r2
      rw [hpad] at hc
      dsimp only at hc
      split at hc
      · simp at hc
      · simp only [Except.ok.injEq] at hc
        have hps := padResolve_state_shape kpm false prev _ _ _ (kq, st1) hpad
        have hout : out.state = st1 := by rw [← hc]
        rw [hout]
        constructor
        · have h3 : st1.prev_key = some [projK m kx] := hps.2.2.1
          rw [h3]
          simp [hpk]
        · have h4 : st1.prev_value = some [projV m vx] := hps.2.2.2.1
          rw [h4]
          simp [hpv]
  · rw [hpk, hpv] at hpair
    simp at hpair
  · rw [hpk, hpv] at hpair
    simp at hpair
  · have hkvr : kvResolve m [kx] [vx] false prev =
        .ok (pk ++ [projK m kx], pv ++ [projV m vx], (pk ++ [projK m kx]).length,
          ⟨none, none, some (pk ++ [projK m kx]), some (pv ++ [projV m vx]),
            none⟩) := by
      simp [kvResolve, hpk, hpv]
    rw [hkvr] at hc
    dsimp only at hc
    rcases hpad : padResolve kpm false prev
        ⟨none, none, some (pk ++ [projK m kx]), some (pv ++ [projV m vx]), none⟩
        (pk ++ [projK m kx]).length (pk ++ [projK m kx]).length with e | r2
    · rw [hpad] at hc
      simp at hc
    · obtain ⟨kq, st1⟩ := r2
      rw [hpad] at hc
      dsimp only at hc
      split at hc
      · simp at hc
      · simp only [Except.ok.injEq] at hc
        have hps := padResolve_state_shape kpm false prev _ _ _ (kq, st1) hpad
        have hout : out.state = st1 := by rw [← hc]
        rw [hout]
        constructor
        · have h3 : st1.prev_key = some (pk ++ [projK m kx]) := hps.2.2.1
          rw [h3]
          simp [hpk]
        · have h4 : st1.prev_value = some (pv ++ [projV m vx]) := hps.2.2.2.1
          rw [h4]
          simp [hpv]

/-- Witness for C4 at the first growing-mode call from the empty state. -/
theorem grow_history_grows_by_one_witness :
    outGrowEx.state.prev_key.map List.length = some 1 ∧
      outGrowEx.state.prev_value.map List.length = some 1 :=
  grow_history_grows_by_one mEx expEx [xEx] xEx xEx none none DecodingState.empty
    outGrowEx rfl rfl

end Claims

section RowLemmas

variable {α : Type} [Field α] {B H D : ℕ}

theorem scoreRow_append (q : Fin D → α) (k1 k2 : List (Fin D → α)) :
    scoreRow q (k1 ++ k2) = scoreRow q k1 ++ scoreRow q k2 :=
  List.map_append _ _ _

theorem length_scoreRow (q : Fin D → α) (ks : List (Fin D → α)) :
    (scoreRow q ks).length = ks.length :=
  List.length_map _ _

theorem addMaskRow_append (a b c d : List (Option α)) (h : a.length = c.length) :
    addMaskRow (a ++ b) (c ++ d) = addMaskRow a c ++ addMaskRow b d := by
  induction a generalizing c with
  | nil =>
      cases c with
      | nil => simp [addMaskRow]
      | cons _ _ => simp at h
  | cons s a ih =>
      cases c with
      | nil => simp at h
      | cons mv c =>
          simp only [List.cons_append, addMaskRow, List.length_cons] at h ⊢
          exact congrArg (List.cons (extAdd s mv)) (ih c (by omega))

theorem addMaskRow_replicate_zero (row : List (Option α)) (n : ℕ) :
    addMaskRow row (List.replicate n (some 0)) = row := by
  induction row generalizing n with
  | nil => simp [addMaskRow]
  | cons s row ih =>
      cases n with
      | zero => simp [addMaskRow]
      | succ n =>
          rw [List.replicate_succ]
          simp only [addMaskRow, ih]
          rcases s with _ | x <;> simp [extAdd]

theorem addMaskRow_replicate_none (row : List (Option α)) (n : ℕ)
    (h : row.length ≤ n) :
    addMaskRow row (List.replicate n none) = List.replicate row.length none := by
  induction row generalizing n with
  | nil => simp [addMaskRow]
  | cons s row ih =>
      cases n with
      | zero => simp at h
      | succ n =>
          rw [List.replicate_succ]
          simp only [addMaskRow, List.length_cons, List.replicate_succ]
          rw [ih n (by simpa using h)]
          rcases s with _ | x <;> simp [extAdd]

theorem maskedFillRow_append (a b : List (Option α)) (c d : List Bool)
    (h : a.length = c.length) :
    maskedFillRow (a ++ b) (c ++ d) = maskedFillRow a c ++ maskedFillRow b d := by
  induction a generalizing c with
  | nil =>
      cases c with
      | nil => simp [maskedFillRow]
      | cons _ _ => simp at h
  | cons s a ih =>
      cases c with
      | nil => simp at h
      | cons mv c =>
          simp only [List.cons_append, maskedFillRow, List.length_cons] at h ⊢
          exact congrArg (List.cons (if mv then none else s)) (ih c (by omega))

theorem maskedFillRow_replicate_none (n : ℕ) (ms : List Bool) :
    maskedFillRow (List.replicate n (none : Option α)) ms =
      List.replicate n none := by
  induction n generalizing ms with
  | zero => simp [maskedFillRow]
  | succ n ih =>
      cases ms with
      | nil => rfl
      | cons mv ms =>
          simp only [List.replicate_succ, maskedFillRow, ih]
          cases mv <;> simp

theorem length_maskedFillRow (row : List (Option α)) (ms : List Bool) :
    (maskedFillRow row ms).length = row.length := by
  induction row generalizing ms with
  | nil => simp [maskedFillRow]
  | cons s row ih =>
      cases ms with
      | nil => rfl
      | cons mv ms => simp [maskedFillRow, ih]

theorem softmaxRow_append_none (exp : α → α) (r : List (Option α)) (n : ℕ) :
    softmaxRow exp (r ++ List.replicate n none) =
      softmaxRow exp r ++ List.replicate n 0 := by
  simp only [softmaxRow, List.map_append, List.map_replicate, expExt,
    List.sum_append, List.sum_replicate, smul_zero, add_zero, zero_div]

theorem length_softmaxRow (exp : α → α) (r : List (Option α)) :
    (softmaxRow exp r).length = r.length :=
  List.length_map _ _

theorem sum_zipWith_replicate_zero (n : ℕ) (vs : List (Fin D → α)) (d : Fin D) :
    (List.zipWith (fun p v => p * v d) (List.replicate n (0 : α)) vs).sum = 0 := by
  induction n generalizing vs with
  | zero => simp
  | succ n ih =>
      cases vs with
      | nil => simp
      | cons v vs =>
          rw [List.replicate_succ]
          simp [ih]

theorem aggrRow_append_zero (probs : List α) (v1 v2 : List (Fin D → α)) (n : ℕ)
    (h : probs.length = v1.length) :
    aggrRow (probs ++ List.replicate n 0) (v1 ++ v2) = aggrRow probs v1 := by
  funext d
  simp only [aggrRow]
  rw [List.zipWith_append _ _ _ _ _ h, List.sum_append,
    sum_zipWith_replicate_zero, add_zero]

/-- The core prefix-reduction step: a full-row computation whose additive mask is zero
on the first `t + 1` positions and `-inf` afterwards, and whose padding mask agrees on
the prefix, equals the computation over the `t + 1` prefix alone. -/
theorem slice_take (exp : α → α) (q : Fin D → α) (kfull vfull : List (Fin D → α))
    (mfull : List Bool) (t c : ℕ) (hkm : mfull.length = kfull.length)
    (hkv : vfull.length = kfull.length) (ht : t + 1 ≤ kfull.length)
    (hc : kfull.length - (t + 1) ≤ c) :
    aggrRow (softmaxRow exp (maskedFillRow (addMaskRow (scoreRow q kfull)
        (List.replicate (t + 1) (some 0) ++ List.replicate c none)) mfull)) vfull =
      aggrRow (softmaxRow exp (maskedFillRow (scoreRow q (kfull.take (t + 1)))
        (mfull.take (t + 1)))) (vfull.take (t + 1)) := by
  have hk1 : (kfull.take (t + 1)).length = t + 1 := by
    rw [List.length_take]
    omega
  have hm1 : (mfull.take (t + 1)).length = t + 1 := by
    rw [List.length_take]
    omega
  have hv1 : (vfull.take (t + 1)).length = t + 1 := by
    rw [List.length_take]
    omega
  conv_lhs =>
    rw [← List.take_append_drop (t + 1) kfull, ← List.take_append_drop (t + 1) mfull,
      ← List.take_append_drop (t + 1) vfull]
  rw [scoreRow_append]
  rw [addMaskRow_append _ _ _ _ (by rw [length_scoreRow, hk1, List.length_replicate])]
  rw [addMaskRow_replicate_zero]
  rw [addMaskRow_replicate_none _ _ (by
    rw [length_scoreRow, List.length_drop]
    exact hc)]
  rw [length_scoreRow]
  rw [maskedFillRow_append _ _ _ _ (by rw [length_scoreRow, hk1, hm1])]
  rw [maskedFillRow_replicate_none]
  rw [softmaxRow_append_none]
  rw [aggrRow_append_zero _ _ _ _ (by
    rw [length_softmaxRow, length_maskedFillRow, length_scoreRow, hk1, hv1])]

end RowLemmas

section LoopLemmas

variable {α : Type} [Field α] {B H D : ℕ}

theorem decodeGrow_from_growState (m : MHA α H D) (exp : α → α)
    (suf pre : List (EVec α B (H * D) × (Fin B → Bool))) :
    decodeGrow m exp suf (growState m pre) =
      .ok (growRows m exp pre suf, growState m (pre ++ suf)) := by
  induction suf generalizing pre with
  | nil => simp [decodeGrow, growRows]
  | cons e rest ih =>
      obtain ⟨x, mk⟩ := e
      rw [decodeGrow]
      rw [show growState m pre = ⟨none, none, some (growKs m pre), some (growVs m pre),
        some (growMs pre)⟩ from rfl]
      rw [recurrentForward_grow_masked_step m exp x x x mk (growKs m pre)
        (growVs m pre) (growMs pre) (by simp [growKs, growMs])]
      dsimp only
      rw [show (⟨none, none, some (growKs m pre ++ [projK m x]),
          some (growVs m pre ++ [projV m x]), some (growMs pre ++ [mk])⟩ :
            DecodingState α B H D) = growState m (pre ++ [(x, mk)]) by
        simp [growState, growKs, growVs, growMs]]
      rw [ih]
      dsimp only
      rw [growRows]
      simp [growState, growKs, growVs, growMs, List.append_assoc]

theorem decodeGrow_from_empty (m : MHA α H D) (exp : α → α)
    (entries : List (EVec α B (H * D) × (Fin B → Bool))) :
    (decodeGrow m exp entries DecodingState.empty).map Prod.fst =
      .ok (growRows m exp [] entries) := by
  cases entries with
  | nil => rfl
  | cons e rest =>
      obtain ⟨x, mk⟩ := e
      rw [decodeGrow, recurrentForward_masked_first,
        recurrentForward_grow_masked_step m exp x x x mk [] [] [] rfl]
      dsimp only
      rw [show (⟨none, none, some ([] ++ [projK m x]), some ([] ++ [projV m x]),
          some ([] ++ [mk])⟩ : DecodingState α B H D) =
            growState m ([] ++ [(x, mk)]) by
        simp [growState, growKs, growVs, growMs]]
      rw [decodeGrow_from_growState]
      dsimp only
      rw [growRows]
      simp [Except.map, growKs, growVs, growMs]

end LoopLemmas

section BaselineLemmas

variable {α : Type} [Field α] {B H D : ℕ}

theorem causalRow_eq (n i : ℕ) (hi : i < n) :
    ((List.range n).map (fun j => if j ≤ i then (some (0 : α)) else none)) =
      List.replicate (i + 1) (some 0) ++ List.replicate (n - (i + 1)) none := by
  apply List.ext_getElem
  · simp
    omega
  · intro j h1 h2
    simp only [List.getElem_map, List.getElem_range]
    rcases Nat.lt_or_ge j (i + 1) with hj | hj
    · rw [List.getElem_append_left (by simpa using hj)]
      rw [List.getElem_replicate]
      rw [if_pos (by omega)]
    · rw [List.getElem_append_right (by simpa using hj)]
      rw [List.getElem_replicate]
      rw [if_neg (by omega)]

theorem growRows_length (m : MHA α H D) (exp : α → α) :
    ∀ (l pre : List (EVec α B (H * D) × (Fin B → Bool))),
      (growRows m exp pre l).length = l.length := by
  intro l
  induction l with
  | nil => intro pre; rfl
  | cons e rest ih =>
      intro pre
      obtain ⟨x, mk⟩ := e
      rw [growRows]
      simp [ih]

theorem growRows_getElem (m : MHA α H D) (exp : α → α) :
    ∀ (l pre : List (EVec α B (H * D) × (Fin B → Bool))) (t : ℕ)
      (h1 : t < l.length) (h2 : t < (growRows m exp pre l).length),
      (growRows m exp pre l)[t] =
        growRowOut m exp (growKs m (pre ++ l.take (t + 1)))
          (growVs m (pre ++ l.take (t + 1))) (growMs (pre ++ l.take (t + 1)))
          (l[t]).1 := by
  intro l
  induction l with
  | nil =>
      intro pre t h1 h2
      simp at h1
  | cons e rest ih =>
      intro pre t h1 h2
      obtain ⟨x, mk⟩ := e
      cases t with
      | zero =>
          simp only [growRows, List.getElem_cons_zero, List.take_succ_cons,
            List.take_zero]
      | succ t =>
          simp only [growRows, List.getElem_cons_succ]
          rw [ih (pre ++ [(x, mk)]) t (by simpa using h1)
            (by rw [growRows_length]; simpa using h1)]
          simp [List.append_assoc, List.take_succ_cons]

theorem baseline_eq_growRows (m : MHA α H D) (exp : α → α)
    (entries : List (EVec α B (H * D) × (Fin B → Bool))) :
    baselineForward m exp (entries.map Prod.fst) (entries.map Prod.fst)
        (entries.map Prod.fst) (some (entries.map Prod.snd))
        (some (causalMask (entries.map Prod.fst).length)) =
      growRows m exp [] entries := by
  apply List.ext_getElem
  · rw [growRows_length]
    simp [baselineForward, attnFromWeights, causalMask]
  · intro t h1 h2
    have hN : t < entries.length := by
      rw [growRows_length] at h2
      exact h2
    rw [growRows_getElem m exp entries [] t hN h2]
    simp only [baselineForward, causalMask, attnFromWeights]
    dsimp only
    rw [List.getElem_map, List.getElem_zipWith, List.getElem_map, List.getElem_map,
      List.getElem_map, List.getElem_range]
    rw [causalRow_eq (entries.map Prod.fst).length t (by simpa using hN)]
    refine congrArg (linearMap m.out_weight m.out_bias) (congrArg fromHeads ?_)
    funext b h
    simp only [applyPadMask, Option.map_some']
    rw [slice_take exp _ _ _ _ t ((entries.map Prod.fst).length - (t + 1))
      (by simp) (by simp) (by simpa using hN) (by simp)]
    simp [growRowOut, growKs, growVs, growMs, List.map_take, List.map_map,
      Function.comp]
    rfl

end BaselineLemmas

section ClaimC1

variable {α : Type} [Field α] {B H D : ℕ}

/-- C1: for every weight setting, batch size, and sequence of N single-timestep
inputs with per-step padding masks, running incremental growing-mode decoding
(`static_kv = False`, `prev_state` supplied and threaded) one step at a time for N
steps and concatenating the N outputs yields the same attention output as the
baseline non-incremental forward run once over the full N-length sequence with a
causal `attn_mask`, identical weights, zero dropout and the same padding mask. -/
theorem incremental_growing_matches_baseline (m : MHA α H D) (exp : α → α)
    (entries : List (EVec α B (H * D) × (Fin B → Bool))) :
    (decodeGrow m exp entries DecodingState.empty).map Prod.fst =
      .ok (baselineForward m exp (entries.map Prod.fst) (entries.map Prod.fst)
        (entries.map Prod.fst) (some (entries.map Prod.snd))
        (some (causalMask (entries.map Prod.fst).length))) := by
  rw [decodeGrow_from_empty, baseline_eq_growRows]

end ClaimC1

end Simdltk
